import Mathlib

/-!
Verification of the session & journal persistence layer of kimi-cli.

The CLI layer (`cli.py`), the relative-time formatter (`utils/datetime.py`)
and the MCP config loader are embedded from their sources.  The session,
journal (wire) and metadata modules are imported by `cli.py` and exercised by
`tests/test_session.py` but their sources are not part of this tree, so they
are modelled from the specification (each such definition carries a
`Modelled from the spec:` doc comment).

Files are modelled as lists of characters; the journal is a newline-delimited
sequence of serialized records.  The serialization here is a concrete
executable line codec with a verified decode-of-encode round trip, standing in
for the JSON line format described by the spec: one self-contained line per
record, newline-free, with fallible decoding of arbitrary lines.
-/

namespace KimiCli

/-! ### Digits and numbers on character lists -/

/-- Character for a decimal digit value below ten. -/
def digitChar (d : Nat) : Char := Char.ofNat (48 + d)

/-- Numeric value of a decimal digit character. -/
def digitVal (c : Char) : Nat := c.toNat - 48

/-- Whether a character is a decimal digit. -/
def isDigitC (c : Char) : Bool := decide (48 ≤ c.toNat) && decide (c.toNat ≤ 57)

theorem digitVal_digitChar : ∀ d : Nat, d < 10 → digitVal (digitChar d) = d := by decide

theorem isDigitC_digitChar : ∀ d : Nat, d < 10 → isDigitC (digitChar d) = true := by decide

/-- Decimal digit expansion, fuel-indexed so that it evaluates by plain
reduction; the fuel never runs out when it is at least the number. -/
def natToDigitsFuel : Nat → Nat → List Char
  | 0, n => [digitChar n]
  | fuel + 1, n =>
    if n < 10 then [digitChar n]
    else natToDigitsFuel fuel (n / 10) ++ [digitChar (n % 10)]

/-- Decimal digit expansion of a natural number, most significant first. -/
def natToDigits (n : Nat) : List Char := natToDigitsFuel n n

theorem natToDigitsFuel_congr :
    ∀ f1 f2 n, n ≤ f1 → n ≤ f2 → natToDigitsFuel f1 n = natToDigitsFuel f2 n := by
  intro f1
  induction f1 with
  | zero =>
    intro f2 n h1 h2
    have hn : n = 0 := by omega
    subst hn
    cases f2 with
    | zero => rfl
    | succ g2 => simp [natToDigitsFuel]
  | succ g1 ih =>
    intro f2 n h1 h2
    cases f2 with
    | zero =>
      have hn : n = 0 := by omega
      subst hn
      simp [natToDigitsFuel]
    | succ g2 =>
      simp only [natToDigitsFuel]
      split
      · rfl
      · rename_i h
        rw [ih g2 (n / 10) (by omega) (by omega)]

theorem natToDigits_eq (n : Nat) :
    natToDigits n = if n < 10 then [digitChar n]
      else natToDigits (n / 10) ++ [digitChar (n % 10)] := by
  unfold natToDigits
  cases n with
  | zero => simp [natToDigitsFuel]
  | succ k =>
    show natToDigitsFuel (k + 1) (k + 1) = _
    simp only [natToDigitsFuel]
    split
    · rfl
    · rename_i h
      rw [natToDigitsFuel_congr k ((k + 1) / 10) ((k + 1) / 10) (by omega) (le_refl _)]

theorem natToDigits_ne_nil (n : Nat) : natToDigits n ≠ [] := by
  rw [natToDigits_eq]
  split
  · simp
  · simp

theorem mem_natToDigits_isDigit (n : Nat) : ∀ c ∈ natToDigits n, isDigitC c = true := by
  induction n using Nat.strong_induction_on with
  | _ n ih =>
    rw [natToDigits_eq]
    split
    · intro c hc
      simp only [List.mem_singleton] at hc
      subst hc
      exact isDigitC_digitChar n (by omega)
    · intro c hc
      rename_i h
      simp only [List.mem_append, List.mem_singleton] at hc
      rcases hc with hc | hc
      · exact ih (n / 10) (Nat.div_lt_self (by omega) (by omega)) c hc
      · subst hc
        exact isDigitC_digitChar (n % 10) (Nat.mod_lt _ (by omega))

/-- Value of a list of digit characters, most significant first. -/
def digitsVal (l : List Char) : Nat :=
  l.foldl (fun a c => a * 10 + digitVal c) 0

/-- Positional weight contributed by the digit expansion of a number. -/
def digitsBase (n : Nat) : Nat :=
  if n < 10 then 10 else digitsBase (n / 10) * 10
  termination_by n
  decreasing_by exact Nat.div_lt_self (by omega) (by omega)

theorem foldl_natToDigits (n a : Nat) :
    (natToDigits n).foldl (fun a c => a * 10 + digitVal c) a = a * digitsBase n + n := by
  induction n using Nat.strong_induction_on generalizing a with
  | _ n ih =>
    rw [natToDigits_eq, digitsBase]
    split
    · rename_i h
      simp only [List.foldl_cons, List.foldl_nil]
      rw [digitVal_digitChar n h]
    · rename_i h
      rw [List.foldl_append, ih (n / 10) (Nat.div_lt_self (by omega) (by omega)) a]
      simp only [List.foldl_cons, List.foldl_nil]
      rw [digitVal_digitChar (n % 10) (Nat.mod_lt _ (by omega))]
      have hdm : 10 * (n / 10) + n % 10 = n := Nat.div_add_mod n 10
      have : a * (digitsBase (n / 10) * 10) = a * digitsBase (n / 10) * 10 :=
        (Nat.mul_assoc a (digitsBase (n / 10)) 10).symm
      rw [this]
      generalize a * digitsBase (n / 10) = ab at *
      omega

theorem digitsVal_natToDigits (n : Nat) : digitsVal (natToDigits n) = n := by
  unfold digitsVal
  rw [foldl_natToDigits]
  omega

/-! ### takeWhile / dropWhile across a delimiter -/

theorem takeWhile_append_stop (p : Char → Bool) (l : List Char) (c : Char) (rest : List Char)
    (h : ∀ x ∈ l, p x = true) (hc : p c = false) :
    (l ++ c :: rest).takeWhile p = l := by
  induction l with
  | nil => simp [List.takeWhile, hc]
  | cons x xs ih =>
    have hx : p x = true := h x (by simp)
    simp only [List.cons_append, List.takeWhile_cons, hx]
    rw [ih (fun y hy => h y (by simp [hy]))]
    simp

theorem dropWhile_append_stop (p : Char → Bool) (l : List Char) (c : Char) (rest : List Char)
    (h : ∀ x ∈ l, p x = true) (hc : p c = false) :
    (l ++ c :: rest).dropWhile p = c :: rest := by
  induction l with
  | nil => simp [List.dropWhile, hc]
  | cons x xs ih =>
    have hx : p x = true := h x (by simp)
    simp only [List.cons_append, List.dropWhile_cons, hx]
    exact ih (fun y hy => h y (by simp [hy]))

/-! ### Length-prefixed number fields -/

/-- Encoded natural number: decimal digits terminated by a colon. -/
def encNat (n : Nat) : List Char := natToDigits n ++ [':']

/-- Parse a natural number field: leading digits up to a colon. -/
def parseNat (input : List Char) : Option (Nat × List Char) :=
  let ds := input.takeWhile isDigitC
  match input.dropWhile isDigitC with
  | ':' :: rest => if ds.isEmpty then none else some (digitsVal ds, rest)
  | _ => none

theorem parseNat_encNat (n : Nat) (rest : List Char) :
    parseNat (encNat n ++ rest) = some (n, rest) := by
  unfold parseNat encNat
  have hdig := mem_natToDigits_isDigit n
  have hcolon : isDigitC ':' = false := by decide
  rw [List.append_assoc, List.cons_append,
    takeWhile_append_stop isDigitC _ _ _ hdig hcolon,
    dropWhile_append_stop isDigitC _ _ _ hdig hcolon]
  simp only [List.isEmpty_iff]
  rw [if_neg (natToDigits_ne_nil n), digitsVal_natToDigits]
  simp

/-- Encoded integer: optional minus sign, then an encoded natural. -/
def encInt (i : Int) : List Char :=
  if i < 0 then '-' :: encNat i.natAbs else encNat i.toNat

/-- Parse an integer field. -/
def parseInt (input : List Char) : Option (Int × List Char) :=
  match input with
  | [] => none
  | c :: rest =>
    if c = '-' then (parseNat rest).map (fun p => (-(p.1 : Int), p.2))
    else (parseNat (c :: rest)).map (fun p => ((p.1 : Int), p.2))

theorem parseInt_encInt (i : Int) (rest : List Char) :
    parseInt (encInt i ++ rest) = some (i, rest) := by
  unfold encInt
  split
  · rename_i h
    simp only [List.cons_append, parseInt, parseNat_encNat]
    simp [abs_of_neg h]
  · rename_i h
    obtain ⟨d, ds, hds⟩ : ∃ d ds, natToDigits i.toNat = d :: ds := by
      cases hnd : natToDigits i.toNat with
      | nil => exact absurd hnd (natToDigits_ne_nil _)
      | cons d ds => exact ⟨d, ds, rfl⟩
    have hd : isDigitC d = true := mem_natToDigits_isDigit i.toNat d (by rw [hds]; simp)
    have hdne : ¬ d = '-' := by
      intro hEq
      rw [hEq] at hd
      exact absurd hd (by decide)
    have hinput : encNat i.toNat ++ rest = d :: (ds ++ ':' :: rest) := by
      simp [encNat, hds]
    rw [hinput]
    simp only [parseInt, if_neg hdne]
    rw [hinput.symm, parseNat_encNat]
    have htn : ((i.toNat : Int)) = i := by omega
    simp [htn]

/-! ### Escaped text payloads

Text may contain newlines and backslashes; the line codec escapes them so
every serialized record stays on a single line, mirroring JSON string
escaping in the wire format. -/

/-- Escape one character for embedding in a single-line field. -/
def escChar (c : Char) : List Char :=
  if c = '\\' then ['\\', '\\']
  else if c = '\n' then ['\\', 'n']
  else [c]

/-- Escape a text payload. -/
def esc : List Char → List Char
  | [] => []
  | c :: cs => escChar c ++ esc cs

mutual

/-- Unescape a text payload; fails on dangling or unknown escapes. -/
def unesc : List Char → Option (List Char)
  | [] => some []
  | c :: cs =>
    if c = '\\' then unescAfterSlash cs
    else (unesc cs).map (fun l => c :: l)

/-- Unescape the remainder of a payload right after a backslash. -/
def unescAfterSlash : List Char → Option (List Char)
  | [] => none
  | d :: cs =>
    if d = '\\' then (unesc cs).map (fun l => '\\' :: l)
    else if d = 'n' then (unesc cs).map (fun l => '\n' :: l)
    else none

end

theorem unesc_esc (s : List Char) : unesc (esc s) = some s := by
  induction s with
  | nil => rfl
  | cons c cs ih =>
    show unesc (escChar c ++ esc cs) = some (c :: cs)
    unfold escChar
    split
    · rename_i hc
      subst hc
      simp [unesc, unescAfterSlash, ih]
    · split
      · rename_i hc hc2
        subst hc2
        simp [unesc, unescAfterSlash, ih, hc]
      · rename_i hc hc2
        simp [unesc, ih, hc, hc2]

theorem newline_not_mem_escChar (c : Char) : '\n' ∉ escChar c := by
  unfold escChar
  split
  · simp
  · split
    · simp
    · rename_i hc hc2
      simp only [List.mem_singleton]
      intro hEq
      exact hc2 hEq.symm

theorem newline_not_mem_esc (s : List Char) : '\n' ∉ esc s := by
  induction s with
  | nil => simp [esc]
  | cons c cs ih =>
    show '\n' ∉ escChar c ++ esc cs
    simp only [List.mem_append]
    intro hmem
    rcases hmem with hmem | hmem
    · exact newline_not_mem_escChar c hmem
    · exact ih hmem

/-- Length-prefixed escaped string field. -/
def encStrF (s : List Char) : List Char := encNat (esc s).length ++ esc s

/-- Parse a length-prefixed escaped string field. -/
def parseStrF (input : List Char) : Option (List Char × List Char) :=
  (parseNat input).bind fun p =>
    if p.1 ≤ p.2.length then
      (unesc (p.2.take p.1)).map fun s => (s, p.2.drop p.1)
    else none

theorem take_length_append (l r : List Char) : (l ++ r).take l.length = l := by
  induction l with
  | nil => simp
  | cons x xs ih => simp [ih]

theorem drop_length_append (l r : List Char) : (l ++ r).drop l.length = r := by
  induction l with
  | nil => simp
  | cons x xs ih => simp [ih]

theorem parseStrF_encStrF (s : List Char) (rest : List Char) :
    parseStrF (encStrF s ++ rest) = some (s, rest) := by
  unfold parseStrF encStrF
  rw [List.append_assoc, parseNat_encNat]
  simp only [Option.some_bind]
  rw [if_pos (by simp), take_length_append, drop_length_append, unesc_esc]
  rfl

/-! ### Wire messages and journal records

Modelled from the spec: a journal record is one line holding a timestamp and
a tagged message; the only shape this core interprets is the turn-begin
message carrying user input text parts; other message kinds are carried
opaquely (tag plus raw payload). -/

/-- Modelled from the spec: the tagged message variants of the wire format
(module `kimi_cli.wire`, absent from this tree): a turn-begin message with
user input text parts, and an opaque fallback for every other message kind. -/
inductive WireMessage where
  | turnBegin (userInput : List (List Char))
  | other (tag : List Char) (payload : List Char)
deriving DecidableEq

/-- Modelled from the spec: one entry of a session's journal, a wall-clock
timestamp (in microseconds, the resolution of the wire timestamps) plus a
message. -/
structure JournalRecord where
  timestamp : Int
  message : WireMessage
deriving DecidableEq

/-- Encode a list of string fields back to back. -/
def encStrList : List (List Char) → List Char
  | [] => []
  | s :: ss => encStrF s ++ encStrList ss

/-- Parse a known number of string fields. -/
def parseStrList : Nat → List Char → Option (List (List Char) × List Char)
  | 0, input => some ([], input)
  | n + 1, input =>
    (parseStrF input).bind fun p =>
      (parseStrList n p.2).map fun q => (p.1 :: q.1, q.2)

theorem parseStrList_encStrList (ss : List (List Char)) (rest : List Char) :
    parseStrList ss.length (encStrList ss ++ rest) = some (ss, rest) := by
  induction ss with
  | nil => rfl
  | cons s ss ih =>
    show parseStrList (ss.length + 1) ((encStrF s ++ encStrList ss) ++ rest) = _
    rw [List.append_assoc]
    simp only [parseStrList, parseStrF_encStrF, Option.some_bind, ih, Option.map_some']

/-- Serialize a message. -/
def encMsg : WireMessage → List Char
  | .turnBegin texts => 'T' :: (encNat texts.length ++ encStrList texts)
  | .other tag payload => 'O' :: (encStrF tag ++ encStrF payload)

/-- Parse a message. -/
def parseMsg (input : List Char) : Option (WireMessage × List Char) :=
  match input with
  | [] => none
  | c :: rest =>
    if c = 'T' then
      (parseNat rest).bind fun p =>
        (parseStrList p.1 p.2).map fun q => (WireMessage.turnBegin q.1, q.2)
    else if c = 'O' then
      (parseStrF rest).bind fun p =>
        (parseStrF p.2).map fun q => (WireMessage.other p.1 q.1, q.2)
    else none

theorem parseMsg_encMsg (m : WireMessage) (rest : List Char) :
    parseMsg (encMsg m ++ rest) = some (m, rest) := by
  cases m with
  | turnBegin texts =>
    show parseMsg ('T' :: (encNat texts.length ++ encStrList texts) ++ rest) = _
    simp only [List.cons_append, parseMsg, if_pos rfl]
    rw [List.append_assoc, parseNat_encNat]
    simp only [Option.some_bind, parseStrList_encStrList, Option.map_some']
    simp
  | other tag payload =>
    show parseMsg ('O' :: (encStrF tag ++ encStrF payload) ++ rest) = _
    have hTO : ¬ ('O' = 'T') := by decide
    simp only [List.cons_append, parseMsg, if_neg hTO, if_pos rfl]
    rw [List.append_assoc, parseStrF_encStrF]
    simp only [Option.some_bind, parseStrF_encStrF, Option.map_some']
    simp

/-- Serialize one journal record as a single line (newline-free). -/
def encRecord (r : JournalRecord) : List Char := encInt r.timestamp ++ encMsg r.message

/-- Decode one line into a journal record; fails on malformed or
incomplete lines. -/
def decodeLine (l : List Char) : Option JournalRecord :=
  (parseInt l).bind fun p =>
    (parseMsg p.2).bind fun q =>
      if q.2.isEmpty then some ⟨p.1, q.1⟩ else none

theorem decodeLine_encRecord (r : JournalRecord) : decodeLine (encRecord r) = some r := by
  unfold decodeLine encRecord
  have h1 : encInt r.timestamp ++ encMsg r.message
      = encInt r.timestamp ++ (encMsg r.message ++ []) := by simp
  rw [h1, parseInt_encInt]
  simp only [Option.some_bind]
  rw [parseMsg_encMsg]
  rfl

theorem newline_not_mem_natToDigits (n : Nat) : '\n' ∉ natToDigits n := by
  intro hmem
  have := mem_natToDigits_isDigit n '\n' hmem
  exact absurd this (by decide)

theorem newline_not_mem_encNat (n : Nat) : '\n' ∉ encNat n := by
  unfold encNat
  simp only [List.mem_append, List.mem_singleton]
  intro hmem
  rcases hmem with hmem | hmem
  · exact newline_not_mem_natToDigits n hmem
  · exact absurd hmem (by decide)

theorem newline_not_mem_encInt (i : Int) : '\n' ∉ encInt i := by
  unfold encInt
  split
  · simp only [List.mem_cons]
    intro hmem
    rcases hmem with hmem | hmem
    · exact absurd hmem (by decide)
    · exact newline_not_mem_encNat _ hmem
  · exact newline_not_mem_encNat _

theorem newline_not_mem_encStrF (s : List Char) : '\n' ∉ encStrF s := by
  unfold encStrF
  simp only [List.mem_append]
  intro hmem
  rcases hmem with hmem | hmem
  · exact newline_not_mem_encNat _ hmem
  · exact newline_not_mem_esc s hmem

theorem newline_not_mem_encStrList (ss : List (List Char)) : '\n' ∉ encStrList ss := by
  induction ss with
  | nil => simp [encStrList]
  | cons s ss ih =>
    show '\n' ∉ encStrF s ++ encStrList ss
    simp only [List.mem_append]
    intro hmem
    rcases hmem with hmem | hmem
    · exact newline_not_mem_encStrF s hmem
    · exact ih hmem

theorem newline_not_mem_encMsg (m : WireMessage) : '\n' ∉ encMsg m := by
  cases m with
  | turnBegin texts =>
    show '\n' ∉ 'T' :: (encNat texts.length ++ encStrList texts)
    simp only [List.mem_cons, List.mem_append]
    intro hmem
    rcases hmem with hmem | hmem | hmem
    · exact absurd hmem (by decide)
    · exact newline_not_mem_encNat _ hmem
    · exact newline_not_mem_encStrList _ hmem
  | other tag payload =>
    show '\n' ∉ 'O' :: (encStrF tag ++ encStrF payload)
    simp only [List.mem_cons, List.mem_append]
    intro hmem
    rcases hmem with hmem | hmem | hmem
    · exact absurd hmem (by decide)
    · exact newline_not_mem_encStrF _ hmem
    · exact newline_not_mem_encStrF _ hmem

theorem newline_not_mem_encRecord (r : JournalRecord) : '\n' ∉ encRecord r := by
  unfold encRecord
  simp only [List.mem_append]
  intro hmem
  rcases hmem with hmem | hmem
  · exact newline_not_mem_encInt _ hmem
  · exact newline_not_mem_encMsg _ hmem

/-! ### The journal file

A journal file is raw text.  `splitNl` cuts it at newline characters: the
chunks before each newline are the complete lines, and the final chunk is
the text after the last newline — empty when the file ends with a newline,
and otherwise a trailing incomplete line (crash artifact). -/

/-- Split text at newline characters.  Always returns at least one chunk;
the last chunk is the text after the final newline. -/
def splitNl : List Char → List (List Char)
  | [] => [[]]
  | c :: rest =>
    if c = '\n' then [] :: splitNl rest
    else
      match splitNl rest with
      | [] => [[c]]
      | l :: ls => (c :: l) :: ls

theorem splitNl_ne_nil (content : List Char) : splitNl content ≠ [] := by
  cases content with
  | nil => simp [splitNl]
  | cons c rest =>
    simp only [splitNl]
    split
    · simp
    · split
      · simp
      · simp

/-- Splitting text that starts with a newline-free line and its newline. -/
theorem splitNl_line_append (a : List Char) (rest : List Char) (h : '\n' ∉ a) :
    splitNl (a ++ '\n' :: rest) = a :: splitNl rest := by
  induction a with
  | nil => simp [splitNl]
  | cons c cs ih =>
    have hc : ¬ c = '\n' := fun hEq => h (by simp [hEq])
    have hcs : '\n' ∉ cs := fun hmem => h (by simp [hmem])
    simp only [List.cons_append, splitNl, if_neg hc, List.append_eq, ih hcs]

/-- Splitting newline-free text yields that text as the single chunk. -/
theorem splitNl_no_newline (a : List Char) (h : '\n' ∉ a) : splitNl a = [a] := by
  induction a with
  | nil => rfl
  | cons c cs ih =>
    have hc : ¬ c = '\n' := fun hEq => h (by simp [hEq])
    have hcs : '\n' ∉ cs := fun hmem => h (by simp [hmem])
    simp only [splitNl, if_neg hc, ih hcs]

/-- Render a list of (newline-free) lines as file text, one newline after
each line. -/
def renderLines : List (List Char) → List Char
  | [] => []
  | l :: ls => l ++ '\n' :: renderLines ls

theorem renderLines_append (a b : List (List Char)) :
    renderLines (a ++ b) = renderLines a ++ renderLines b := by
  induction a with
  | nil => simp [renderLines]
  | cons l ls ih => simp [renderLines, ih]

theorem splitNl_renderLines_append (ls : List (List Char)) (tail : List Char)
    (h : ∀ l ∈ ls, '\n' ∉ l) :
    splitNl (renderLines ls ++ tail) = ls ++ splitNl tail := by
  induction ls with
  | nil => simp [renderLines]
  | cons l ls ih =>
    have hl : '\n' ∉ l := h l (by simp)
    have hls : ∀ x ∈ ls, '\n' ∉ x := fun x hx => h x (by simp [hx])
    show splitNl ((l ++ '\n' :: renderLines ls) ++ tail) = (l :: ls) ++ splitNl tail
    rw [List.append_assoc, List.cons_append, splitNl_line_append l _ hl, ih hls]
    rfl

/-! ### JournalLog

Modelled from the spec (module `kimi_cli.session` / `kimi_cli.wire`, absent
from this tree): an append-only per-session log.  `append` writes one
serialized record plus a newline at the end of the file; `read_all` scans the
file from the start, decoding one record per complete line, skipping
malformed complete lines with a reported warning, silently dropping a
trailing incomplete line, and treating a missing file as an empty journal. -/

namespace JournalLog

/-- Complete lines of file text: every chunk before a newline.  The text
after the last newline (empty, or a trailing incomplete line) is dropped. -/
def completeLines (content : List Char) : List (List Char) :=
  (splitNl content).dropLast

/-- Result of scanning a journal: decoded records in order, plus the
malformed complete lines reported as warnings. -/
structure ReadResult where
  records : List JournalRecord
  warnings : List (List Char)
deriving DecidableEq

/-- Scan complete lines in order: decodable lines produce records,
malformed ones produce warnings; neither aborts the scan. -/
def scanLines : List (List Char) → ReadResult
  | [] => ⟨[], []⟩
  | l :: ls =>
    let r := scanLines ls
    match decodeLine l with
    | some j => ⟨j :: r.records, r.warnings⟩
    | none => ⟨r.records, l :: r.warnings⟩

/-- Modelled from the spec: `JournalLog.read_all()`.  The file is `none`
when missing.  Produces the records of the well-formed complete lines, in
order, with warnings for malformed complete lines. -/
def read_all (file : Option (List Char)) : ReadResult :=
  match file with
  | none => ⟨[], []⟩
  | some content => scanLines (completeLines content)

/-- Modelled from the spec: `JournalLog.append(record)` writes one
serialized record as a single line at the end of the file, never rewriting
existing content. -/
def append (content : List Char) (r : JournalRecord) : List Char :=
  content ++ (encRecord r ++ ['\n'])

/-- Append a list of records one by one. -/
def appendAll (content : List Char) (rs : List JournalRecord) : List Char :=
  rs.foldl append content

theorem scanLines_append (a b : List (List Char)) :
    scanLines (a ++ b) =
      ⟨(scanLines a).records ++ (scanLines b).records,
        (scanLines a).warnings ++ (scanLines b).warnings⟩ := by
  induction a with
  | nil => simp [scanLines]
  | cons l ls ih =>
    simp only [List.cons_append, scanLines, ih]
    cases decodeLine l with
    | none => simp [ih]
    | some j => simp [ih]

theorem scanLines_encoded (rs : List JournalRecord) :
    scanLines (rs.map encRecord) = ⟨rs, []⟩ := by
  induction rs with
  | nil => rfl
  | cons r rs ih =>
    simp only [List.map_cons, scanLines, ih, decodeLine_encRecord]

/-- A file made of encoded records, one per line. -/
theorem appendAll_renderLines (ls : List (List Char)) (rs : List JournalRecord) :
    appendAll (renderLines ls) rs = renderLines (ls ++ rs.map encRecord) := by
  induction rs generalizing ls with
  | nil => simp [appendAll, renderLines]
  | cons r rs ih =>
    show appendAll (append (renderLines ls) r) rs = _
    have : append (renderLines ls) r = renderLines (ls ++ [encRecord r]) := by
      rw [renderLines_append]
      rfl
    rw [this, ih]
    simp

theorem completeLines_renderLines (ls : List (List Char)) (h : ∀ l ∈ ls, '\n' ∉ l) :
    completeLines (renderLines ls) = ls := by
  unfold completeLines
  have : renderLines ls = renderLines ls ++ [] := by simp
  rw [this, splitNl_renderLines_append ls [] h]
  simp [splitNl]

theorem completeLines_renderLines_partial (ls : List (List Char)) (tail : List Char)
    (h : ∀ l ∈ ls, '\n' ∉ l) (htail : '\n' ∉ tail) :
    completeLines (renderLines ls ++ tail) = ls := by
  unfold completeLines
  rw [splitNl_renderLines_append ls tail h, splitNl_no_newline tail htail]
  simp

end JournalLog

/-! ### TitleResolver -/

namespace TitleResolver

/-- Bounded display length for derived titles. -/
def maxTitleLen : Nat := 50

/-- First line of a text: everything before the first newline. -/
def firstLine (s : List Char) : List Char := s.takeWhile (fun c => !(c = '\n'))

/-- Trim a line to the display bound, appending an ellipsis marker when
truncated. -/
def trimTitle (s : List Char) : List Char :=
  if s.length ≤ maxTitleLen then s else s.take maxTitleLen ++ ['…']

/-- Text of a message when it represents user-authored input containing
text: the concatenated text parts of a turn-begin message, when nonempty. -/
def userText (m : WireMessage) : Option (List Char) :=
  match m with
  | .turnBegin parts =>
    let t := parts.flatten
    if t.isEmpty then none else some t
  | .other _ _ => none

/-- Modelled from the spec: `TitleResolver.derive` (part of the absent
`kimi_cli.session` module).  Scans the journal for the first record with
user-authored text, returning its first line trimmed to the display bound;
otherwise a fallback title naming the session's creation identifier. -/
def derive (journal : Option (List Char)) (ident : List Char) : List Char :=
  match (JournalLog.read_all journal).records.findSome? (fun r => userText r.message) with
  | some t => trimTitle (firstLine t)
  | none => "Untitled (".data ++ ident ++ [')']

end TitleResolver

/-! ### Metadata document -/

/-- Modelled from the spec: per-working-directory bookkeeping entry. -/
structure WorkDirMeta where
  lastSessionId : Option String
deriving DecidableEq

/-- Modelled from the spec: the single global metadata document — the
last-used thinking preference plus a mapping from work-dir keys to their
bookkeeping entries. -/
structure Metadata where
  thinking : Bool
  workDirs : List (String × WorkDirMeta)
deriving DecidableEq

/-- Modelled from the spec: `Metadata.get_work_dir_meta`, a pure lookup
over the in-memory mapping keyed by the canonical work-dir key. -/
def getWorkDirMeta (m : Metadata) (key : String) : Option WorkDirMeta :=
  (m.workDirs.find? (fun p => p.1 = key)).map (fun p => p.2)

/-! ### SessionStore -/

/-- Modelled from the spec: the on-disk state of one session directory
under a work dir's namespace — its id, whether the content/context file
exists, the content file's modification time (microseconds), the creation
time, and the journal file (none when absent). -/
structure SessionData where
  id : String
  contextExists : Bool
  updatedAt : Int
  createdAt : Int
  journal : Option (List Char)
deriving DecidableEq

/-- Modelled from the spec: a Session as returned to callers — id, derived
title, last-updated time (from the content file), and content file
existence. -/
structure Session where
  id : String
  title : List Char
  updatedAt : Int
  contextExists : Bool
deriving DecidableEq

namespace Session

/-- Locate a session's on-disk data by id within one work dir's store. -/
def findData (store : List SessionData) (i : String) : Option SessionData :=
  store.find? (fun sd => sd.id = i)

/-- Build the caller-facing Session view of stored session data, deriving
the title from the journal (with the session id as fallback identifier). -/
def mkSession (sd : SessionData) : Session :=
  { id := sd.id, title := TitleResolver.derive sd.journal sd.id.data,
    updatedAt := sd.updatedAt, contextExists := sd.contextExists }

/-- Modelled from the spec: `Session.create(work_dir)` — picks the first
candidate id that does not collide with an existing session (collision
check and retry), creates the session directory with an empty content file
and no journal, and returns the new Session; fails only when every
candidate collides. -/
def create (store : List SessionData) (candidates : List String) (now : Int) :
    Option (Session × List SessionData) :=
  match candidates.find? (fun c => (findData store c).isNone) with
  | none => none
  | some newId =>
    let sd : SessionData :=
      { id := newId, contextExists := true, updatedAt := now, createdAt := now, journal := none }
    some (mkSession sd, store ++ [sd])

/-- Modelled from the spec: `Session.find(work_dir, id)` — none when the
session directory does not exist (NotFound), otherwise the Session view. -/
def find (store : List SessionData) (i : String) : Option Session :=
  (findData store i).map mkSession

/-- Sort order of `Session.list`: by `updatedAt` descending, ties broken by
id descending. -/
def sessionRel (a b : Session) : Prop :=
  b.updatedAt < a.updatedAt ∨ (b.updatedAt = a.updatedAt ∧ b.id ≤ a.id)

instance : DecidableRel sessionRel := fun a b => by
  unfold sessionRel
  infer_instance

instance : IsTotal Session sessionRel where
  total a b := by
    unfold sessionRel
    rcases lt_trichotomy a.updatedAt b.updatedAt with h | h | h
    · exact Or.inr (Or.inl h)
    · rcases le_total a.id b.id with hid | hid
      · exact Or.inr (Or.inr ⟨h, hid⟩)
      · exact Or.inl (Or.inr ⟨h.symm, hid⟩)
    · exact Or.inl (Or.inl h)

instance : IsTrans Session sessionRel where
  trans a b c hab hbc := by
    unfold sessionRel at *
    rcases hab with hab | ⟨hab1, hab2⟩
    · rcases hbc with hbc | ⟨hbc1, hbc2⟩
      · exact Or.inl (by omega)
      · exact Or.inl (by omega)
    · rcases hbc with hbc | ⟨hbc1, hbc2⟩
      · exact Or.inl (by omega)
      · exact Or.inr ⟨by omega, le_trans hbc2 hab2⟩

/-- Modelled from the spec: `Session.list(work_dir)` — builds a Session per
structurally valid entry (skipping entries whose content file is missing)
and sorts by `updatedAt` descending with ties broken by id descending. -/
def list (store : List SessionData) : List Session :=
  List.insertionSort sessionRel ((store.filter (fun sd => sd.contextExists)).map mkSession)

/-- Modelled from the spec: `Session.continue_(work_dir)` — consults the
metadata document for the work dir's entry; when the entry, its
last-session id, or the recorded session itself is missing, returns none
rather than failing. -/
def continue_ (m : Metadata) (store : List SessionData) (key : String) : Option Session :=
  match getWorkDirMeta m key with
  | none => none
  | some wdm =>
    match wdm.lastSessionId with
    | none => none
    | some sid => find store sid

end Session

/-! ### MetadataStore persistence -/

/-- Encode a boolean as one character. -/
def encBool (b : Bool) : List Char := if b then ['1'] else ['0']

/-- Serialize one work-dir entry of the metadata document. -/
def encWorkDirEntry (p : String × WorkDirMeta) : List Char :=
  encStrF p.1.data ++
    (match p.2.lastSessionId with
     | none => ['N']
     | some sid => 'S' :: encStrF sid.data)

/-- Serialize the full metadata document. -/
def serializeMetadata (m : Metadata) : List Char :=
  encBool m.thinking ++ encNat m.workDirs.length ++ (m.workDirs.map encWorkDirEntry).flatten

/-- The slice of the filesystem owned by MetadataStore: the destination
document and the temporary file used during `save`. -/
structure MetaFS where
  dest : Option (List Char)
  tmp : Option (List Char)
deriving DecidableEq

namespace MetadataStore

/-- Write (possibly partial) content into the temporary file; the
destination is untouched. -/
def writeTmp (fs : MetaFS) (content : List Char) : MetaFS :=
  { fs with tmp := some content }

/-- Atomically rename the temporary file over the destination. -/
def renameOver (fs : MetaFS) : MetaFS :=
  { dest := fs.tmp, tmp := none }

/-- Modelled from the spec: `MetadataStore.save(metadata)` — serialize the
full document, write it to a temporary file in the same directory, then
rename the temporary file over the destination. -/
def save (fs : MetaFS) (m : Metadata) : MetaFS :=
  renameOver (writeTmp fs (serializeMetadata m))

/-- Every filesystem state observable while `save` runs: after each prefix
of the temporary-file write (a crash may stop there), and after the final
rename. -/
def saveStates (fs : MetaFS) (m : Metadata) : List MetaFS :=
  let content := serializeMetadata m
  (List.range (content.length + 1)).map (fun k => writeTmp fs (content.take k))
    ++ [renameOver (writeTmp fs content)]

end MetadataStore

/-! ### CLI layer (embedded from cli.py) -/

/-- Modelled from the spec: `Metadata.new_work_dir_meta`, the pure
construction helper — adds a fresh empty entry for the key to the
in-memory mapping and hands that entry back for mutation. -/
def newWorkDirMeta (m : Metadata) (key : String) : Metadata :=
  { m with workDirs := m.workDirs ++ [(key, { lastSessionId := none })] }

/-- Set the last-session id of the key's entry in the mapping. -/
def setLastSessionId (wds : List (String × WorkDirMeta)) (key sid : String) :
    List (String × WorkDirMeta) :=
  wds.map (fun p => if p.1 = key then (p.1, { lastSessionId := some sid }) else p)

/-- Embeds the tail of `kimi` in `cli.py`: after a run, if it succeeded,
load the stored metadata, fetch the work dir's entry — recreating it when
missing — set its `last_session_id` to the session that was run, set the
thinking preference, and save; an unsuccessful run saves nothing. -/
def runEpilogue (succeeded : Bool) (stored : Metadata) (key sid : String)
    (soulThinking : Bool) : Metadata :=
  if succeeded then
    let m := if (getWorkDirMeta stored key).isSome then stored else newWorkDirMeta stored key
    { thinking := soulThinking, workDirs := setLastSessionId m.workDirs key sid }
  else stored

/-- Minimal JSON value model for the MCP configuration document. -/
inductive JsonVal where
  | str (s : String)
  | num (n : Int)
  | bool (b : Bool)
  | null
  | arr (elems : List JsonVal)
  | obj (fields : List (String × JsonVal))

/-- Observable state of the default MCP config file, split by the outcomes
`_load_mcp_config` distinguishes: the file is absent, present but not
parsable as JSON, or present and parsed to a JSON value. -/
inductive McpFileState where
  | missing
  | invalid (raw : List Char)
  | valid (j : JsonVal)

/-- Default MCP configuration: an object whose only field maps the
mcpServers key to an empty object. -/
def defaultMcpConfig : JsonVal := .obj [("mcpServers", .obj [])]

/-- Embeds `_load_mcp_config` from `cli.py`: return the default
configuration when the file does not exist, parse its text otherwise, and
fall back to the default configuration when parsing fails. -/
def loadMcpConfig : McpFileState → JsonVal
  | .missing => defaultMcpConfig
  | .invalid _ => defaultMcpConfig
  | .valid j => j

/-! ### Relative time formatting (embedded from utils/datetime.py)

Timestamps and the current time are exact integers in microseconds (the
resolution of Python's datetime); `Int.tdiv` mirrors Python's `int()`
truncation of `total_seconds()` quotients, and `Int.fdiv` mirrors
`timedelta.days` flooring. -/

/-- Zero-padded two-digit decimal rendering. -/
def pad2 (n : Nat) : String := if n < 10 then "0" ++ toString n else toString n

/-- Month and day of the civil (Gregorian) date for a day count relative to
1970-01-01. -/
def civilMonthDay (z : Int) : Nat × Nat :=
  let zShift := z + 719468
  let era := Int.fdiv zShift 146097
  let doe := (zShift - era * 146097).toNat
  let yoe := (doe - doe / 1460 + doe / 36524 - doe / 146096) / 365
  let doy := doe - (365 * yoe + yoe / 4 - yoe / 100)
  let mp := (5 * doy + 2) / 153
  let d := doy - (153 * mp + 2) / 5 + 1
  let m := if mp < 10 then mp + 3 else mp - 9
  (m, d)

/-- Render a timestamp (microseconds) as its zero-padded month-day date,
as Python's strftime with the month-dash-day format does. -/
def formatMonthDay (t : Int) : String :=
  let md := civilMonthDay (Int.fdiv t 86400000000)
  pad2 md.1 ++ "-" ++ pad2 md.2

/-- Embeds `format_relative_time` from `utils/datetime.py` on microsecond
timestamps. -/
def format_relative_time (now timestamp : Int) : String :=
  let diff := now - timestamp
  if diff < 5 * 60 * 1000000 then "just now"
  else if diff < 60 * 60 * 1000000 then
    toString (Int.tdiv diff (60 * 1000000)) ++ "m ago"
  else if diff < 24 * 60 * 60 * 1000000 then
    toString (Int.tdiv diff (3600 * 1000000)) ++ "h ago"
  else if diff < 7 * 24 * 60 * 60 * 1000000 then
    toString (Int.fdiv diff (86400 * 1000000)) ++ "d ago"
  else formatMonthDay timestamp

/-! ### Helper lemmas for the claim theorems -/

theorem find?_append_of_none {α : Type} {p : α → Bool} (l1 l2 : List α)
    (h : l1.find? p = none) : (l1 ++ l2).find? p = l2.find? p := by
  induction l1 with
  | nil => simp
  | cons x xs ih =>
    cases hpx : p x with
    | true => simp [List.find?_cons, hpx] at h
    | false =>
      simp only [List.find?_cons, hpx] at h
      simp only [List.cons_append, List.find?_cons, hpx]
      exact ih h

theorem findData_snoc_self (store : List SessionData) (sd : SessionData)
    (h : Session.findData store sd.id = none) :
    Session.findData (store ++ [sd]) sd.id = some sd := by
  unfold Session.findData at *
  rw [find?_append_of_none store [sd] h]
  simp [List.find?_cons]

/-- When the first user text of a journal exists, `derive` returns its first
line trimmed to the display bound. -/
theorem derive_of_userText (journal : Option (List Char)) (ident : List Char) (txt : List Char)
    (h : (JournalLog.read_all journal).records.findSome?
      (fun r => TitleResolver.userText r.message) = some txt) :
    TitleResolver.derive journal ident =
      TitleResolver.trimTitle (TitleResolver.firstLine txt) := by
  unfold TitleResolver.derive
  rw [h]

/-- A journal built by appending encoded records to an empty file reads back
exactly those records. -/
theorem read_all_appendAll (rs : List JournalRecord) :
    JournalLog.read_all (some (JournalLog.appendAll [] rs)) = ⟨rs, []⟩ := by
  have h := JournalLog.appendAll_renderLines [] rs
  simp only [renderLines, List.nil_append] at h
  rw [h]
  show JournalLog.scanLines (JournalLog.completeLines (renderLines (rs.map encRecord))) = _
  rw [JournalLog.completeLines_renderLines _ ?hnl]
  case hnl =>
    intro l hl
    obtain ⟨r, _, rfl⟩ := List.mem_map.mp hl
    exact newline_not_mem_encRecord r
  exact JournalLog.scanLines_encoded rs

/-! ### Claim theorems -/

/-- C1: `JournalLog.read_all` never fails and returns exactly the sequence
of well-formed complete-line records: a missing journal file yields the
empty result; a trailing incomplete line (no final newline) is silently
dropped, leaving the result of the intact file; and a malformed
non-trailing line is skipped — the records are those of the file without
it — while the bad line is reported as a warning instead of aborting the
scan. -/
theorem C1_read_all_error_tolerance :
    JournalLog.read_all none = ⟨[], []⟩
    ∧ (∀ (ls : List (List Char)) (tail : List Char),
        (∀ l ∈ ls, '\n' ∉ l) → '\n' ∉ tail →
        JournalLog.read_all (some (renderLines ls ++ tail)) =
          JournalLog.read_all (some (renderLines ls)))
    ∧ (∀ (ls1 ls2 : List (List Char)) (bad : List Char),
        (∀ l ∈ ls1 ++ bad :: ls2, '\n' ∉ l) → decodeLine bad = none →
        (JournalLog.read_all (some (renderLines (ls1 ++ bad :: ls2)))).records =
          (JournalLog.read_all (some (renderLines (ls1 ++ ls2)))).records
        ∧ bad ∈ (JournalLog.read_all (some (renderLines (ls1 ++ bad :: ls2)))).warnings) := by
  refine ⟨rfl, ?_, ?_⟩
  · intro ls tail hls htail
    show JournalLog.scanLines (JournalLog.completeLines (renderLines ls ++ tail)) =
      JournalLog.scanLines (JournalLog.completeLines (renderLines ls))
    rw [JournalLog.completeLines_renderLines_partial ls tail hls htail,
      JournalLog.completeLines_renderLines ls hls]
  · intro ls1 ls2 bad hall hbad
    have hls1 : ∀ l ∈ ls1, '\n' ∉ l := fun l hl => hall l (by simp [hl])
    have hls2 : ∀ l ∈ ls2, '\n' ∉ l := fun l hl => hall l (by simp [hl])
    have h12 : ∀ l ∈ ls1 ++ ls2, '\n' ∉ l := by
      intro l hl
      simp only [List.mem_append] at hl
      rcases hl with hl | hl
      · exact hls1 l hl
      · exact hls2 l hl
    show (JournalLog.scanLines (JournalLog.completeLines (renderLines (ls1 ++ bad :: ls2)))).records
        = (JournalLog.scanLines (JournalLog.completeLines (renderLines (ls1 ++ ls2)))).records
      ∧ bad ∈ (JournalLog.scanLines
          (JournalLog.completeLines (renderLines (ls1 ++ bad :: ls2)))).warnings
    rw [JournalLog.completeLines_renderLines _ hall, JournalLog.completeLines_renderLines _ h12,
      JournalLog.scanLines_append ls1 (bad :: ls2), JournalLog.scanLines_append ls1 ls2]
    constructor
    · simp only [JournalLog.scanLines, hbad]
    · simp only [JournalLog.scanLines, hbad]
      simp

/-- C1 witness: a concrete journal with one encoded record: adding a
truncated trailing line does not change the result, and a malformed line
before the record is skipped with a warning. -/
theorem C1_read_all_error_tolerance_witness :
    ((∀ l ∈ [['0', ':', 'O', '0', ':', '0', ':']], '\n' ∉ l)
      ∧ '\n' ∉ ['x'] ∧ (∀ l ∈ [] ++ ['x'] :: [['0', ':', 'O', '0', ':', '0', ':']], '\n' ∉ l)
      ∧ decodeLine ['x'] = none)
    ∧ JournalLog.read_all (some (renderLines [['0', ':', 'O', '0', ':', '0', ':']] ++ ['x'])) =
        JournalLog.read_all (some (renderLines [['0', ':', 'O', '0', ':', '0', ':']]))
    ∧ ((JournalLog.read_all
          (some (renderLines ([] ++ ['x'] :: [['0', ':', 'O', '0', ':', '0', ':']])))).records =
        (JournalLog.read_all
          (some (renderLines ([] ++ [['0', ':', 'O', '0', ':', '0', ':']])))).records
      ∧ ['x'] ∈ (JournalLog.read_all
          (some (renderLines ([] ++ ['x'] :: [['0', ':', 'O', '0', ':', '0', ':']])))).warnings) :=
  ⟨⟨by decide, by decide, by decide, by decide⟩,
    C1_read_all_error_tolerance.2.1 [['0', ':', 'O', '0', ':', '0', ':']] ['x']
      (by decide) (by decide),
    C1_read_all_error_tolerance.2.2 [] [['0', ':', 'O', '0', ':', '0', ':']] ['x']
      (by decide) (by decide)⟩

/-- C2: `MetadataStore.save` is atomic: every filesystem state observable
while a save runs shows the destination holding either the previous
document or the complete new serialization — never a partial write — the
completed save leaves the full new document at the destination, and a save
that fails at any point before the rename leaves the previous document
untouched. -/
theorem C2_save_atomic (fs : MetaFS) (m : Metadata) :
    (∀ st ∈ MetadataStore.saveStates fs m,
      st.dest = fs.dest ∨ st.dest = some (serializeMetadata m))
    ∧ (MetadataStore.save fs m).dest = some (serializeMetadata m)
    ∧ (∀ k, (MetadataStore.writeTmp fs ((serializeMetadata m).take k)).dest = fs.dest) := by
  refine ⟨?_, rfl, fun k => rfl⟩
  intro st hst
  unfold MetadataStore.saveStates at hst
  simp only [List.mem_append, List.mem_map, List.mem_range, List.mem_singleton] at hst
  rcases hst with ⟨k, _, rfl⟩ | rfl
  · exact Or.inl rfl
  · exact Or.inr rfl

/-- C2 witness: the atomicity theorem applied to an empty filesystem and a
minimal metadata document, at the observable state right after the rename. -/
theorem C2_save_atomic_witness :
    (MetadataStore.renameOver
        (MetadataStore.writeTmp ⟨none, none⟩ (serializeMetadata ⟨true, []⟩)) ∈
      MetadataStore.saveStates ⟨none, none⟩ ⟨true, []⟩)
    ∧ ((MetadataStore.renameOver
          (MetadataStore.writeTmp ⟨none, none⟩ (serializeMetadata ⟨true, []⟩))).dest =
        (⟨none, none⟩ : MetaFS).dest
      ∨ (MetadataStore.renameOver
          (MetadataStore.writeTmp ⟨none, none⟩ (serializeMetadata ⟨true, []⟩))).dest =
        some (serializeMetadata ⟨true, []⟩)) :=
  ⟨by decide, (C2_save_atomic ⟨none, none⟩ ⟨true, []⟩).1 _ (by decide)⟩

/-- C3: appending N journal records one by one to an empty journal and then
reading them back yields exactly those N records, in append order, each
equal to what was written; and append only ever extends the file — the
content before an append is a prefix of the content after. -/
theorem C3_append_roundtrip :
    (∀ rs : List JournalRecord,
      (JournalLog.read_all (some (JournalLog.appendAll [] rs))).records = rs
      ∧ (JournalLog.read_all (some (JournalLog.appendAll [] rs))).records.length = rs.length)
    ∧ (∀ (content : List Char) (r : JournalRecord),
        ∃ added, JournalLog.append content r = content ++ added) := by
  constructor
  · intro rs
    rw [read_all_appendAll rs]
    exact ⟨rfl, rfl⟩
  · intro content r
    exact ⟨encRecord r ++ ['\n'], rfl⟩

/-- C4: `Session.list` sorts by `updatedAt` descending with ties broken by
id descending, loses no valid session (the result is a permutation of the
valid entries), is deterministic (it is a function of the store); in
particular with session A touched earlier than session B the listing is
B before A, and an empty store lists as the empty sequence. -/
theorem C4_list_sorted_by_recency :
    (∀ store : List SessionData,
      List.Sorted Session.sessionRel (Session.list store)
      ∧ (Session.list store).Perm
          ((store.filter (fun sd => sd.contextExists)).map Session.mkSession))
    ∧ (∀ a b : SessionData, a.contextExists = true → b.contextExists = true →
        a.updatedAt < b.updatedAt →
        Session.list [a, b] = [Session.mkSession b, Session.mkSession a])
    ∧ Session.list [] = [] := by
  refine ⟨?_, ?_, rfl⟩
  · intro store
    exact ⟨List.sorted_insertionSort _ _, List.perm_insertionSort _ _⟩
  · intro a b ha hb hab
    have hno : ¬ Session.sessionRel (Session.mkSession a) (Session.mkSession b) := by
      unfold Session.sessionRel Session.mkSession
      intro h
      rcases h with h | ⟨h1, h2⟩
      · simp only at h
        omega
      · simp only at h1
        omega
    simp only [Session.list, List.filter_cons, ha, hb, if_true, List.filter_nil,
      List.map_cons, List.map_nil, List.insertionSort, List.orderedInsert, if_neg hno]

/-- C4 witness: two valid sessions where the first has the earlier content
modification time list in reverse creation order (most recent first). -/
theorem C4_list_sorted_by_recency_witness :
    ((⟨"a", true, 0, 0, none⟩ : SessionData).contextExists = true
      ∧ (⟨"b", true, 10, 0, none⟩ : SessionData).contextExists = true
      ∧ (⟨"a", true, 0, 0, none⟩ : SessionData).updatedAt
          < (⟨"b", true, 10, 0, none⟩ : SessionData).updatedAt)
    ∧ Session.list [⟨"a", true, 0, 0, none⟩, ⟨"b", true, 10, 0, none⟩] =
        [Session.mkSession ⟨"b", true, 10, 0, none⟩,
          Session.mkSession ⟨"a", true, 0, 0, none⟩] :=
  ⟨⟨rfl, rfl, by decide⟩,
    C4_list_sorted_by_recency.2.1 ⟨"a", true, 0, 0, none⟩ ⟨"b", true, 10, 0, none⟩
      rfl rfl (by decide)⟩

/-- C5: `Session.continue_` returns the empty result, without failing, on a
working directory with no recorded last session — whether the work-dir
metadata entry is absent, has no last-session id, or records an id whose
session no longer exists. -/
theorem C5_continue_none (m : Metadata) (store : List SessionData) (key : String)
    (h : getWorkDirMeta m key = none
      ∨ (∃ wdm, getWorkDirMeta m key = some wdm ∧ wdm.lastSessionId = none)
      ∨ (∃ wdm sid, getWorkDirMeta m key = some wdm ∧ wdm.lastSessionId = some sid
          ∧ Session.find store sid = none)) :
    Session.continue_ m store key = none := by
  unfold Session.continue_
  rcases h with h | ⟨wdm, h1, h2⟩ | ⟨wdm, sid, h1, h2, h3⟩
  · rw [h]
  · simp only [h1, h2]
  · simp only [h1, h2, h3]

/-- C5 witness: a metadata document with no work-dir entries and an empty
store give an empty continue result. -/
theorem C5_continue_none_witness :
    (getWorkDirMeta ⟨false, []⟩ "k" = none
      ∨ (∃ wdm, getWorkDirMeta ⟨false, []⟩ "k" = some wdm ∧ wdm.lastSessionId = none)
      ∨ (∃ wdm sid, getWorkDirMeta ⟨false, []⟩ "k" = some wdm ∧ wdm.lastSessionId = some sid
          ∧ Session.find [] sid = none))
    ∧ Session.continue_ ⟨false, []⟩ [] "k" = none :=
  ⟨Or.inl rfl, C5_continue_none ⟨false, []⟩ [] "k" (Or.inl rfl)⟩

/-- C6: a successful `Session.create` returns a Session whose title starts
with the Untitled fallback marker (the new journal is empty) and whose
content file exists in the store immediately afterwards. -/
theorem C6_create_untitled (store : List SessionData) (candidates : List String) (now : Int)
    (s : Session) (store2 : List SessionData)
    (h : Session.create store candidates now = some (s, store2)) :
    (∃ rest, s.title = "Untitled (".data ++ rest)
    ∧ ∃ sd, Session.findData store2 s.id = some sd ∧ sd.contextExists = true := by
  unfold Session.create at h
  cases hfind : candidates.find? (fun c => (Session.findData store c).isNone) with
  | none =>
    rw [hfind] at h
    exact absurd h (by simp)
  | some newId =>
    rw [hfind] at h
    simp only [Option.some.injEq, Prod.mk.injEq] at h
    obtain ⟨hs, hst⟩ := h
    subst hs
    subst hst
    have hnone : Session.findData store newId = none := by
      have := List.find?_some hfind
      simpa [Option.isNone_iff_eq_none] using this
    constructor
    · refine ⟨newId.data ++ [')'], ?_⟩
      show TitleResolver.derive none newId.data = _
      unfold TitleResolver.derive
      simp [JournalLog.read_all, List.findSome?]
    · refine ⟨_, findData_snoc_self store _ hnone, rfl⟩

/-- C6 witness: creating in an empty store with one candidate id returns
the awaited Untitled session and stores its data with an existing content
file. -/
theorem C6_create_untitled_witness :
    Session.create [] ["s1"] 0 =
      some (⟨"s1", "Untitled (s1)".data, 0, true⟩, [⟨"s1", true, 0, 0, none⟩])
    ∧ ((∃ rest, (⟨"s1", "Untitled (s1)".data, 0, true⟩ : Session).title =
          "Untitled (".data ++ rest)
      ∧ ∃ sd, Session.findData [⟨"s1", true, 0, 0, none⟩]
            (⟨"s1", "Untitled (s1)".data, 0, true⟩ : Session).id = some sd
          ∧ sd.contextExists = true) :=
  ⟨by decide, C6_create_untitled [] ["s1"] 0 _ _ (by decide)⟩

/-- C7: when a session's journal contains records with user-authored text,
the title of the session returned by `Session.find` is the first line of
the first such record's text, trimmed to the display bound — and the
journal is not modified (`find` and `derive` are pure functions of the
store). -/
theorem C7_find_title_from_user_text (store : List SessionData) (sd : SessionData) (s : Session)
    (rs : List JournalRecord) (txt : List Char)
    (hsd : Session.findData store sd.id = some sd)
    (hj : sd.journal = some (JournalLog.appendAll [] rs))
    (htxt : rs.findSome? (fun r => TitleResolver.userText r.message) = some txt)
    (hfind : Session.find store sd.id = some s) :
    s.title = TitleResolver.trimTitle (TitleResolver.firstLine txt) := by
  unfold Session.find at hfind
  rw [hsd] at hfind
  simp only [Option.map_some', Option.some.injEq] at hfind
  subst hfind
  show TitleResolver.derive sd.journal sd.id.data = _
  rw [hj]
  apply derive_of_userText
  rw [read_all_appendAll]
  exact htxt

/-- Example record carrying the example user text of the specification. -/
def helloRecord : JournalRecord :=
  ⟨7, WireMessage.turnBegin ["hello world from wire file".data]⟩

/-- Example session data whose journal holds only that record. -/
def helloSessionData : SessionData :=
  ⟨"s1", true, 0, 0, some (JournalLog.appendAll [] [helloRecord])⟩

/-- C7 witness: a journal whose first record is a turn-begin carrying the
text of the specified example yields exactly that text as the title. -/
theorem C7_find_title_from_user_text_witness :
    (Session.findData [helloSessionData] helloSessionData.id = some helloSessionData
      ∧ helloSessionData.journal = some (JournalLog.appendAll [] [helloRecord])
      ∧ List.findSome? (fun r => TitleResolver.userText r.message) [helloRecord] =
          some "hello world from wire file".data
      ∧ Session.find [helloSessionData] helloSessionData.id =
          some (Session.mkSession helloSessionData))
    ∧ (Session.mkSession helloSessionData).title =
        TitleResolver.trimTitle (TitleResolver.firstLine "hello world from wire file".data) :=
  ⟨⟨by decide, rfl, by decide, by decide⟩,
    C7_find_title_from_user_text [helloSessionData] helloSessionData
      (Session.mkSession helloSessionData) [helloRecord] "hello world from wire file".data
      (by decide) rfl (by decide) (by decide)⟩

theorem setLastSessionId_of_none (wds : List (String × WorkDirMeta)) (key sid : String)
    (h : wds.find? (fun p => p.1 = key) = none) :
    setLastSessionId wds key sid = wds := by
  induction wds with
  | nil => rfl
  | cons q qs ih =>
    by_cases hq : q.1 = key
    · rw [List.find?_cons_of_pos qs (by simpa using hq)] at h
      exact absurd h (by simp)
    · rw [List.find?_cons_of_neg qs (by simpa using hq)] at h
      unfold setLastSessionId at *
      simp only [List.map_cons, if_neg hq]
      rw [ih h]

theorem find?_setLastSessionId_of_isSome (wds : List (String × WorkDirMeta)) (key sid : String)
    (h : (wds.find? (fun p => p.1 = key)).isSome) :
    (setLastSessionId wds key sid).find? (fun p => p.1 = key) =
      some (key, { lastSessionId := some sid }) := by
  induction wds with
  | nil => simp [List.find?] at h
  | cons q qs ih =>
    by_cases hq : q.1 = key
    · unfold setLastSessionId
      simp only [List.map_cons, if_pos hq]
      rw [List.find?_cons_of_pos _ (by simpa using hq), hq]
    · rw [List.find?_cons_of_neg qs (by simpa using hq)] at h
      unfold setLastSessionId at *
      simp only [List.map_cons, if_neg hq]
      rw [List.find?_cons_of_neg _ (by simpa using hq)]
      exact ih h

/-- C8: the CLI epilogue after a successful run persists the run's session
as the work directory's last session — the saved document's entry for the
work dir key has exactly that last-session id, with the entry created when
it was missing — while after an unsuccessful run the stored document is
left unchanged. -/
theorem C8_epilogue_marks_last_session (stored : Metadata) (key sid : String)
    (thinking : Bool) :
    getWorkDirMeta (runEpilogue true stored key sid thinking) key =
      some { lastSessionId := some sid }
    ∧ runEpilogue false stored key sid thinking = stored := by
  refine ⟨?_, rfl⟩
  unfold runEpilogue
  by_cases hsome : (getWorkDirMeta stored key).isSome
  · simp only [if_pos hsome, if_true]
    unfold getWorkDirMeta at *
    simp only
    rw [find?_setLastSessionId_of_isSome stored.workDirs key sid (by simpa using hsome)]
    rfl
  · simp only [if_neg hsome, if_true]
    have hnone : stored.workDirs.find? (fun p => p.1 = key) = none := by
      have := Option.not_isSome_iff_eq_none.mp hsome
      unfold getWorkDirMeta at this
      simpa using this
    unfold getWorkDirMeta newWorkDirMeta
    simp only
    unfold setLastSessionId
    rw [List.map_append]
    have h1 : (stored.workDirs.map
        (fun p => if p.1 = key then (p.1, { lastSessionId := some sid }) else p)) =
        stored.workDirs := setLastSessionId_of_none stored.workDirs key sid hnone
    rw [h1, find?_append_of_none stored.workDirs _ hnone]
    simp [List.find?_cons]

/-- C9: the MCP config loader falls back to the default configuration
instead of failing: a missing default config file and an unparsable one
both load as the object mapping the mcpServers key to an empty object, and
a parse error is never propagated — a successfully parsed document is
returned as is. -/
theorem C9_mcp_config_fallback :
    loadMcpConfig .missing = .obj [("mcpServers", .obj [])]
    ∧ (∀ raw, loadMcpConfig (.invalid raw) = .obj [("mcpServers", .obj [])])
    ∧ (∀ j, loadMcpConfig (.valid j) = j) :=
  ⟨rfl, fun _ => rfl, fun _ => rfl⟩

/-- C10: `format_relative_time` is total and partitions by the distance
from the current time: under five minutes — including every future
timestamp — it is the just-now text; under an hour it is the floor of the
minute count; under a day the floor of the hour count; under seven days
the floor of the day count; and otherwise the zero-padded month-day date
of the timestamp. -/
theorem C10_format_relative_time_partition (now t : Int) :
    (now - t < 5 * 60 * 1000000 → format_relative_time now t = "just now")
    ∧ (now < t → format_relative_time now t = "just now")
    ∧ (5 * 60 * 1000000 ≤ now - t → now - t < 60 * 60 * 1000000 →
        format_relative_time now t = toString (Int.fdiv (now - t) (60 * 1000000)) ++ "m ago")
    ∧ (60 * 60 * 1000000 ≤ now - t → now - t < 24 * 60 * 60 * 1000000 →
        format_relative_time now t = toString (Int.fdiv (now - t) (3600 * 1000000)) ++ "h ago")
    ∧ (24 * 60 * 60 * 1000000 ≤ now - t → now - t < 7 * 24 * 60 * 60 * 1000000 →
        format_relative_time now t = toString (Int.fdiv (now - t) (86400 * 1000000)) ++ "d ago")
    ∧ (7 * 24 * 60 * 60 * 1000000 ≤ now - t →
        format_relative_time now t = formatMonthDay t) := by
  unfold format_relative_time
  refine ⟨?_, ?_, ?_, ?_, ?_, ?_⟩
  · intro h
    rw [if_pos (by omega)]
  · intro h
    rw [if_pos (by omega)]
  · intro h1 h2
    rw [if_neg (by omega), if_pos (by omega), Int.fdiv_eq_tdiv (by omega) (by omega)]
  · intro h1 h2
    rw [if_neg (by omega), if_neg (by omega), if_pos (by omega),
      Int.fdiv_eq_tdiv (by omega) (by omega)]
  · intro h1 h2
    rw [if_neg (by omega), if_neg (by omega), if_neg (by omega), if_pos (by omega)]
  · intro h
    rw [if_neg (by omega), if_neg (by omega), if_neg (by omega), if_neg (by omega)]

/-- C10 witness: ten minutes in the past formats as a minute count, and a
timestamp in the future formats as just now. -/
theorem C10_format_relative_time_partition_witness :
    ((5 * 60 * 1000000 ≤ (600000000 : Int) - 0 ∧ (600000000 : Int) - 0 < 60 * 60 * 1000000)
      ∧ (0 : Int) < 5)
    ∧ format_relative_time 600000000 0 =
        toString (Int.fdiv ((600000000 : Int) - 0) (60 * 1000000)) ++ "m ago"
    ∧ format_relative_time 0 5 = "just now" :=
  ⟨⟨⟨by decide, by decide⟩, by decide⟩,
    (C10_format_relative_time_partition 600000000 0).2.2.1 (by decide) (by decide),
    (C10_format_relative_time_partition 0 5).2.1 (by decide)⟩

end KimiCli
